import Mathlib

/-!
Verification of `input_files/count_extinction_grid.py`.

The script reads a text file line by line, skips lines starting with the
character held by `hashChar`, splits every other line on a single space
character, parses fields 0 and 1 with Python's `float`, counts the lines
whose parsed values lie strictly inside the fixed footprint box, and
prints one message with the final count.

Numbers are modelled with CPython's semantics: `float` on a string
applies the Unicode transform (non-ASCII whitespace to space, Unicode
decimal digits to ASCII digits), strips ASCII whitespace at the ends,
accepts a sign, `inf`/`infinity`/`nan` case-insensitively, or a decimal
literal with PEP 515 underscores, and rounds the exact decimal value to
the nearest IEEE 754 binary64 double, ties to even, overflowing to the
infinities. A finite double is kept as the integer pair `m * 2 ^ e`, so
every operation evaluates in the kernel, and is interpreted into `ℚ` by
`val` for the statements; comparisons follow Python's float order, with
nan comparing false against everything. The only abstraction is that a
negative zero is kept as zero: the ordered comparisons the script
performs cannot distinguish them.
-/

namespace CountGrid

/-- The ASCII whitespace characters that CPython's float parsing strips
from both ends of its argument (after the transform, which turns the
non-ASCII Unicode whitespace into spaces). -/
def isPyFloatSpace (c : Char) : Bool :=
  c = ' ' || c = '\t' || c = '\n' || c = '\r' || c = '\x0b' || c = '\x0c'

/-- Strip leading and trailing Python whitespace, as `float` does. -/
def stripSpaces (cs : List Char) : List Char :=
  ((cs.dropWhile isPyFloatSpace).reverse.dropWhile isPyFloatSpace).reverse

/-- Consume an optional leading sign; returns whether the value is negated. -/
def splitSign : List Char → Bool × List Char
  | '+' :: cs => (false, cs)
  | '-' :: cs => (true, cs)
  | cs => (false, cs)

/-- The natural number denoted by a list of decimal digit characters. -/
def digitsToNat (ds : List Char) : Nat :=
  ds.foldl (fun a c => a * 10 + (c.toNat - 48)) 0

/-- A Python float: a finite binary64 value `m * 2 ^ e`, an infinity, or
nan. Finite values are kept normalized with `m` odd (or zero); the sign
of a negative zero is dropped, since the ordered comparisons the script
performs cannot observe it. -/
inductive PyVal where
  | fin (m : Int) (e : Int)
  | inf (neg : Bool)
  | nan
deriving DecidableEq, Repr

/-- Negation of a Python float, for the literals -3.1 and -1.8. -/
def pyNeg : PyVal → PyVal
  | .fin m e => .fin (-m) e
  | .inf b => .inf (!b)
  | .nan => .nan

/-- The exact rational value `m * 2 ^ e` of a finite double. -/
def dval (m e : Int) : ℚ :=
  (m : ℚ) * 2 ^ e

/-- The exact rational value of a finite Python float (0 on nan and the
infinities, where it is never used). -/
def val : PyVal → ℚ
  | .fin m e => dval m e
  | _ => 0

/-- Bit length of a natural number, driven by fuel (`n + 1` in `bitLen`
is always enough). -/
def bitLenF : Nat → Nat → Nat
  | 0, _ => 0
  | fuel + 1, n => if n = 0 then 0 else bitLenF fuel (n / 2) + 1

/-- Bit length: `2 ^ (bitLen n - 1) ≤ n < 2 ^ bitLen n` for `n > 0`. -/
def bitLen (n : Nat) : Nat := bitLenF (n + 1) n

/-- Normalize a finite double by halving the mantissa while it is even;
fuel 60 suffices for mantissas up to `2 ^ 53`. -/
def normFinF : Nat → Int → Int → PyVal
  | 0, m, e => .fin m e
  | fuel + 1, m, e =>
    if m % 2 = 0 ∧ m ≠ 0 then normFinF fuel (m / 2) (e + 1) else .fin m e

/-- Round the positive rational `N / D` (`N, D > 0`) to the nearest
binary64 value, ties to even, as IEEE 754 and CPython's float parsing do:
find the exponent `e` with `2 ^ e ≤ N / D < 2 ^ (e + 1)`, scale to the
grid `2 ^ u` with `u = max (e - 52) (-1074)` (subnormals included), round
the scaled value half-to-even, and overflow to infinity at `2 ^ 1024`. -/
def roundPos (N D : Nat) : PyVal :=
  let a := bitLen N
  let b := bitLen D
  let k : Int := (a : Int) - (b : Int)
  let e : Int := if D * 2 ^ k.toNat ≤ N * 2 ^ ((-k).toNat) then k else k - 1
  let u : Int := max (e - 52) (-1074)
  let A := N * 2 ^ ((-u).toNat)
  let B := D * 2 ^ u.toNat
  let m0 := A / B
  let r := A % B
  let m := if B < 2 * r then m0 + 1
    else if 2 * r < B then m0
    else if m0 % 2 = 0 then m0 else m0 + 1
  if m = 0 then .fin 0 0
  else if (1024 : Int) < (bitLen m : Int) + u then .inf false
  else normFinF 60 (m : Int) u

/-- The binary64 double denoted by the exact decimal `n * 10 ^ p`,
rounded to nearest with ties to even. -/
def roundDec (n p : Int) : PyVal :=
  if n = 0 then .fin 0 0
  else
    let mag := n.natAbs
    let N := if 0 ≤ p then mag * 10 ^ p.toNat else mag
    let D := if 0 ≤ p then 1 else 10 ^ ((-p).toNat)
    let v := roundPos N D
    if n < 0 then pyNeg v else v

/-- Strict order `m1 * 2 ^ e1 < m2 * 2 ^ e2` on finite doubles, by
aligning the exponents; it agrees with the order of the exact rational
values (`dyadicLt_iff`). -/
def dyadicLt (m1 e1 m2 e2 : Int) : Bool :=
  if e1 ≤ e2 then decide (m1 < m2 * 2 ^ (e2 - e1).toNat)
  else decide (m1 * 2 ^ (e1 - e2).toNat < m2)

/-- Python's `<` on floats: nan compares false with everything, the
infinities sit at the ends, and finite values compare by their exact
rational values. -/
def pyLt : PyVal → PyVal → Bool
  | .nan, _ => false
  | _, .nan => false
  | .inf n1, .inf n2 => n1 && !n2
  | .inf n1, .fin _ _ => n1
  | .fin _ _, .inf n2 => !n2
  | .fin m1 e1, .fin m2 e2 => dyadicLt m1 e1 m2 e2

/-- The non-ASCII characters with the Unicode whitespace property, which
CPython's transform turns into a space before float parsing. -/
def isUniSpaceHigh (c : Char) : Bool :=
  let n := c.toNat
  n = 0x85 || n = 0xa0 || n = 0x1680 || (0x2000 ≤ n && n ≤ 0x200a) ||
    n = 0x2028 || n = 0x2029 || n = 0x202f || n = 0x205f || n = 0x3000

/-- The decimal value of a non-ASCII Unicode decimal digit (category Nd),
as CPython's transform uses: the 65 runs of ten consecutive code points,
each starting at the digit of value 0. -/
def uniDecimal (c : Char) : Option Nat :=
  let n := c.toNat
  let starts : List Nat :=
    [0x660, 0x6f0, 0x7c0, 0x966, 0x9e6, 0xa66, 0xae6, 0xb66, 0xbe6, 0xc66,
     0xce6, 0xd66, 0xde6, 0xe50, 0xed0, 0xf20, 0x1040, 0x1090, 0x17e0,
     0x1810, 0x1946, 0x19d0, 0x1a80, 0x1a90, 0x1b50, 0x1bb0, 0x1c40, 0x1c50,
     0xa620, 0xa8d0, 0xa900, 0xa9d0, 0xa9f0, 0xaa50, 0xabf0, 0xff10, 0x104a0,
     0x10d30, 0x11066, 0x110f0, 0x11136, 0x111d0, 0x112f0, 0x11450, 0x114d0,
     0x11650, 0x116c0, 0x11730, 0x118e0, 0x11950, 0x11c50, 0x11d50, 0x11da0,
     0x16a60, 0x16ac0, 0x16b50, 0x1d7ce, 0x1d7d8, 0x1d7e2, 0x1d7ec, 0x1d7f6,
     0x1e140, 0x1e2f0, 0x1e950, 0x1fbf0]
  match starts.find? (fun s => s ≤ n && n < s + 10) with
  | some s => some (n - s)
  | none => none

/-- CPython's transform before float parsing: characters below code point
127 pass through, other Unicode whitespace becomes a space, other Unicode
decimal digits become ASCII digits, and everything else becomes `?`,
which the grammar then rejects. -/
def transformChar (c : Char) : Char :=
  if c.toNat < 127 then c
  else if isUniSpaceHigh c then ' '
  else
    match uniDecimal c with
    | some v => Char.ofNat (48 + v)
    | none => '?'

/-- ASCII lower-casing, for the case-insensitive `inf`/`nan` match. -/
def toLowerAscii (c : Char) : Char :=
  if 'A' ≤ c ∧ c ≤ 'Z' then Char.ofNat (c.toNat + 32) else c

/-- Validate and drop PEP 515 underscores: each `_` must sit directly
between two digits. The flag records whether the previous character was a
digit. -/
def remUnd : Bool → List Char → Option (List Char)
  | _, [] => some []
  | prev, c :: rest =>
    if c = '_' then
      if prev then
        match rest with
        | c2 :: _ => if c2.isDigit then remUnd false rest else none
        | [] => none
      else none
    else
      (remUnd c.isDigit rest).map (fun l => c :: l)

/-- Parse the mantissa of a float literal: `digits`, `digits.`,
`digits.digits` or `.digits`, at least one digit in total. Returns the
concatenated digit value, the number of fractional digits, and the
unconsumed characters. -/
def parseMantissa (cs : List Char) : Option (Nat × Nat × List Char) :=
  let ip := cs.takeWhile Char.isDigit
  let rest := cs.dropWhile Char.isDigit
  match rest with
  | '.' :: rest2 =>
      let fp := rest2.takeWhile Char.isDigit
      let rest3 := rest2.dropWhile Char.isDigit
      if ip.isEmpty && fp.isEmpty then none
      else some (digitsToNat (ip ++ fp), fp.length, rest3)
  | _ => if ip.isEmpty then none else some (digitsToNat ip, 0, rest)

/-- Parse an optional exponent part `e`/`E`, optional sign, digits. When no
`e`/`E` is present nothing is consumed and the exponent is 0; a bare `e`
with no digits is a parse failure. -/
def parseExponent : List Char → Option (Int × List Char)
  | [] => some (0, [])
  | c :: rest =>
    if c = 'e' || c = 'E' then
      let (neg, rest2) := splitSign rest
      let ds := rest2.takeWhile Char.isDigit
      let rest3 := rest2.dropWhile Char.isDigit
      if ds.isEmpty then none
      else some ((if neg then -(digitsToNat ds : Int) else (digitsToNat ds : Int)), rest3)
    else some (0, c :: rest)

/-- CPython's `float` applied to a string: Unicode transform, strip of
ASCII whitespace at both ends, optional sign, then case-insensitive
`inf`/`infinity`/`nan` or a decimal literal with PEP 515 underscores,
whose exact value is rounded to the nearest binary64 double. The whole
string must be consumed. -/
def pyFloat (s : List Char) : Option PyVal :=
  let u := stripSpaces (s.map transformChar)
  let (neg, v) := splitSign u
  let low := v.map toLowerAscii
  if low = ("inf").data ∨ low = ("infinity").data then some (.inf neg)
  else if low = ("nan").data then some .nan
  else
    match remUnd false v with
    | none => none
    | some w =>
      match parseMantissa w with
      | none => none
      | some (m, f, rest) =>
        match parseExponent rest with
        | none => none
        | some (e, rest2) =>
          if rest2.isEmpty then
            some (roundDec (if neg then -(m : Int) else (m : Int)) (e - (f : Int)))
          else none

/-- The comment marker tested by `line.startswith` in the script. -/
def hashChar : Char := '#'

/-- `line.startswith` applied to the comment marker. -/
def startsWithHash : List Char → Bool
  | [] => false
  | c :: _ => c = hashChar

/-- Python's `str.split` with an explicit one-character separator: split at
every occurrence, keeping empty fields; the empty string yields one empty
field. -/
def splitChar (sep : Char) : List Char → List (List Char)
  | [] => [[]]
  | c :: cs =>
    if c = sep then [] :: splitChar sep cs
    else
      match splitChar sep cs with
      | [] => [[c]]
      | f :: fs => (c :: f) :: fs

/-- The binary64 value of the literal `3.1` in the script. -/
def lBound : PyVal := roundDec 31 (-1)

/-- The binary64 value of the literal `1.8` in the script. -/
def bBound : PyVal := roundDec 18 (-1)

/-- The test of the script on the parsed row `(l, b)`:
`l` above the double -3.1, `l` below the double 3.1, `b` above the double
-1.8, `b` below the double 1.8, all strict, with Python's float
comparison semantics. -/
def footprintTest (l b : PyVal) : Bool :=
  (pyLt (pyNeg lBound) l && pyLt l lBound) && (pyLt (pyNeg bBound) b && pyLt b bBound)

/-- One iteration of the loop body on a line: `some 0` for a skipped
comment or a non-matching row, `some 1` for a matching row, `none` when an
uncaught exception is raised (missing field 1, or `float` failing on field
0 or field 1), in the evaluation order of the script. -/
def lineDelta (line : List Char) : Option Nat :=
  if startsWithHash line then some 0
  else
    ((splitChar ' ' line).get? 0).bind fun f0 =>
      (pyFloat f0).bind fun l =>
        ((splitChar ' ' line).get? 1).bind fun f1 =>
          (pyFloat f1).bind fun b =>
            some (if footprintTest l b then 1 else 0)

/-- The whole read loop: fold `lineDelta` over the lines, threading the
counter; `none` as soon as a line raises. -/
def scanLines : List (List Char) → Nat → Option Nat
  | [], count => some count
  | line :: rest, count =>
    match lineDelta line with
    | none => none
    | some d => scanLines rest (count + d)

/-- Decimal digits of `n`, most significant first, driven by fuel (the fuel
`n + 1` in `natRepr` is always enough). -/
def natDigitsAux : Nat → Nat → List Char
  | 0, _ => []
  | fuel + 1, n => if n = 0 then [] else natDigitsAux fuel (n / 10) ++ [Char.ofNat (48 + n % 10)]

/-- Decimal rendering of a natural number, as Python renders the counter. -/
def natRepr (n : Nat) : List Char :=
  if n = 0 then ['0'] else natDigitsAux (n + 1) n

/-- The line printed at the end of a successful run. -/
def message (n : Nat) : List Char :=
  ("There are ").data ++ natRepr n ++ (" grid points within the JASMINE extended footprint").data

/-- The program on a list of input lines (each line as read by
`readlines`, trailing newline included): the printed message on success,
`none` when an uncaught exception aborts the run before printing. -/
def runProgram (lines : List (List Char)) : Option (List Char) :=
  match scanLines lines 0 with
  | none => none
  | some n => some (message n)

/-! ### Helper lemmas -/

theorem dval_neg (m e : Int) : dval (-m) e = -(dval m e) := by
  unfold dval
  push_cast
  ring

theorem dval_lt_dval_le (m1 e1 m2 e2 : Int) (h : e1 ≤ e2) :
    dval m1 e1 < dval m2 e2 ↔ m1 < m2 * 2 ^ (e2 - e1).toNat := by
  unfold dval
  have h2 : (2 : ℚ) ^ e2 = ((2 ^ (e2 - e1).toNat : Int) : ℚ) * 2 ^ e1 := by
    push_cast
    rw [← zpow_natCast (2 : ℚ) ((e2 - e1).toNat), ← zpow_add₀ (by norm_num : (2 : ℚ) ≠ 0)]
    congr 1
    omega
  rw [h2, ← mul_assoc, mul_lt_mul_right (by positivity : (0 : ℚ) < 2 ^ e1)]
  constructor <;> intro hlt <;> exact_mod_cast hlt

theorem dval_lt_dval_ge (m1 e1 m2 e2 : Int) (h : e2 ≤ e1) :
    dval m1 e1 < dval m2 e2 ↔ m1 * 2 ^ (e1 - e2).toNat < m2 := by
  unfold dval
  have h2 : (2 : ℚ) ^ e1 = ((2 ^ (e1 - e2).toNat : Int) : ℚ) * 2 ^ e2 := by
    push_cast
    rw [← zpow_natCast (2 : ℚ) ((e1 - e2).toNat), ← zpow_add₀ (by norm_num : (2 : ℚ) ≠ 0)]
    congr 1
    omega
  rw [h2, ← mul_assoc, mul_lt_mul_right (by positivity : (0 : ℚ) < 2 ^ e2)]
  constructor <;> intro hlt <;> exact_mod_cast hlt

theorem dyadicLt_iff (m1 e1 m2 e2 : Int) :
    dyadicLt m1 e1 m2 e2 = true ↔ dval m1 e1 < dval m2 e2 := by
  unfold dyadicLt
  by_cases h : e1 ≤ e2
  · rw [if_pos h, decide_eq_true_iff, dval_lt_dval_le m1 e1 m2 e2 h]
  · rw [if_neg h, decide_eq_true_iff, dval_lt_dval_ge m1 e1 m2 e2 (by omega)]

theorem footprintTest_fin_iff (ml el mb eb : Int) :
    footprintTest (.fin ml el) (.fin mb eb) = true ↔
      (-(val lBound) < dval ml el ∧ dval ml el < val lBound ∧
       -(val bBound) < dval mb eb ∧ dval mb eb < val bBound) := by
  have hlB : lBound = .fin 6980579422424269 (-51) := by decide
  have hbB : bBound = .fin 8106479329266893 (-52) := by decide
  unfold footprintTest
  rw [hlB, hbB]
  simp only [pyNeg, pyLt, val, Bool.and_eq_true, dyadicLt_iff, dval_neg]
  tauto

theorem lineDelta_parse_eq (line : List Char) (dl db : PyVal)
    (hnc : startsWithHash line = false)
    (h0 : ((splitChar ' ' line).get? 0).bind pyFloat = some dl)
    (h1 : ((splitChar ' ' line).get? 1).bind pyFloat = some db) :
    lineDelta line = some (if footprintTest dl db then 1 else 0) := by
  rcases hf0 : (splitChar ' ' line).get? 0 with _ | f0
  · rw [hf0] at h0; cases h0
  rcases hf1 : (splitChar ' ' line).get? 1 with _ | f1
  · rw [hf1] at h1; cases h1
  rw [hf0, Option.some_bind] at h0
  rw [hf1, Option.some_bind] at h1
  unfold lineDelta
  rw [hnc]
  simp only [Bool.false_eq_true, if_false, hf0, hf1, h0, h1, Option.some_bind]

/-- C1: a non-comment line whose first two space-separated fields parse as
the finite doubles `l` and `b` is counted if and only if `l` lies strictly
between the binary64 values of the literals -3.1 and 3.1 and `b` strictly
between those of -1.8 and 1.8; a row whose parsed double equals a bound —
including a decimal such as 3.0999999999999999 that rounds to the double
3.1 — is not counted. -/
theorem counted_iff_strictly_inside (line : List Char) (ml el mb eb : Int)
    (hnc : startsWithHash line = false)
    (h0 : ((splitChar ' ' line).get? 0).bind pyFloat = some (.fin ml el))
    (h1 : ((splitChar ' ' line).get? 1).bind pyFloat = some (.fin mb eb)) :
    (lineDelta line = some 1 ↔
      (-(val lBound) < dval ml el ∧ dval ml el < val lBound ∧
       -(val bBound) < dval mb eb ∧ dval mb eb < val bBound)) ∧
    ((dval ml el = -(val lBound) ∨ dval ml el = val lBound ∨
      dval mb eb = -(val bBound) ∨ dval mb eb = val bBound) →
      lineDelta line = some 0) := by
  have hd := lineDelta_parse_eq line (.fin ml el) (.fin mb eb) hnc h0 h1
  have hiff := footprintTest_fin_iff ml el mb eb
  rw [hd]
  constructor
  · constructor
    · intro hsome
      apply hiff.mp
      by_contra hft
      rw [Bool.not_eq_true] at hft
      rw [hft] at hsome
      simp at hsome
    · intro hp
      rw [hiff.mpr hp]
      rfl
  · intro hb
    have hft : footprintTest (.fin ml el) (.fin mb eb) = false := by
      by_contra h
      rw [Bool.not_eq_false] at h
      obtain ⟨p1, p2, p3, p4⟩ := hiff.mp h
      rcases hb with hb | hb | hb | hb <;> linarith
    rw [hft]
    rfl

/-- Witness for C1 at the concrete line `1.0 1.0 w` with `l = b = 1.0`,
the double `1 * 2 ^ 0`. -/
theorem counted_iff_strictly_inside_witness :
    (lineDelta (("1.0 1.0 w\n").data) = some 1 ↔
      (-(val lBound) < dval 1 0 ∧ dval 1 0 < val lBound ∧
       -(val bBound) < dval 1 0 ∧ dval 1 0 < val bBound)) ∧
    ((dval 1 0 = -(val lBound) ∨ dval 1 0 = val lBound ∨
      dval 1 0 = -(val bBound) ∨ dval 1 0 = val bBound) →
      lineDelta (("1.0 1.0 w\n").data) = some 0) :=
  counted_iff_strictly_inside (("1.0 1.0 w\n").data) 1 0 1 0
    (by decide) (by decide) (by decide)

/-- The divergence between decimal and binary64 semantics at the
boundary, matching the program: the seventeen-digit decimal
3.0999999999999999 rounds to exactly the double 3.1, so the row is not
counted even though the decimal it spells is below 3.1. -/
theorem boundary_decimal_rounds_to_literal :
    pyFloat (("3.0999999999999999").data) = some (.fin 6980579422424269 (-51)) ∧
    lBound = .fin 6980579422424269 (-51) ∧
    lineDelta (("3.0999999999999999 0.0\n").data) = some 0 := by decide

theorem lineDelta_none_left (line f0 : List Char)
    (hnc : startsWithHash line = false)
    (hf0 : (splitChar ' ' line).get? 0 = some f0)
    (hp : pyFloat f0 = none) :
    lineDelta line = none := by
  unfold lineDelta
  rw [hnc]
  simp only [Bool.false_eq_true, if_false, hf0, Option.some_bind, hp, Option.none_bind]

theorem scanLines_eq_none (ls : List (List Char)) (line : List Char)
    (hmem : line ∈ ls) (h : lineDelta line = none) :
    ∀ c, scanLines ls c = none := by
  induction ls with
  | nil => cases hmem
  | cons a rest ih =>
    intro c
    rcases List.mem_cons.mp hmem with rfl | hmem'
    · unfold scanLines; rw [h]
    · unfold scanLines
      rcases lineDelta a with _ | d
      · rfl
      · exact ih hmem' _

theorem splitChar_cons (sep c : Char) (cs : List Char) :
    splitChar sep (c :: cs) =
      if c = sep then [] :: splitChar sep cs
      else
        match splitChar sep cs with
        | [] => [[c]]
        | f :: fs => (c :: f) :: fs := rfl

theorem splitChar_cons_sep (sep : Char) (f rest : List Char) (hf : sep ∉ f) :
    splitChar sep (f ++ sep :: rest) = f :: splitChar sep rest := by
  induction f with
  | nil => rw [List.nil_append, splitChar_cons, if_pos rfl]
  | cons c cs ih =>
    have hc : ¬ c = sep := fun h => hf (by rw [h]; exact List.mem_cons_self _ _)
    have ih' := ih (fun h => hf (List.mem_cons_of_mem _ h))
    rw [List.cons_append, splitChar_cons, if_neg hc, ih']

theorem splitChar_no_sep (sep : Char) (f : List Char) (hf : sep ∉ f) :
    splitChar sep f = [f] := by
  induction f with
  | nil => rfl
  | cons c cs ih =>
    have hc : ¬ c = sep := fun h => hf (by rw [h]; exact List.mem_cons_self _ _)
    have ih' := ih (fun h => hf (List.mem_cons_of_mem _ h))
    rw [splitChar_cons, if_neg hc, ih']

/-- C3 counterexample: in the line `1.0<TAB>2.0`, the two fields are
whitespace-separated valid float literals, yet the run aborts with a parse
error: the script splits on a single space only, so the whole row becomes
field 0, which `float` rejects. -/
theorem tab_separated_fields_abort :
    pyFloat (("1.0").data) = some (.fin 1 0) ∧
    pyFloat (("2.0").data) = some (.fin 1 1) ∧
    startsWithHash (("1.0\t2.0\n").data) = false ∧
    lineDelta (("1.0\t2.0\n").data) = none ∧
    runProgram [("1.0\t2.0\n").data] = none := by decide

/-- C3 amended: when the separator is exactly one space character — field 0
and field 1 contain no space, and field 1 is followed by the end of the
line or by another space — valid float literals in fields 0 and 1 parse as
`l` and `b` and the line is processed without error. -/
theorem single_space_fields_parse_ok (f0 f1 tail : List Char) (dl db : PyVal)
    (hf0 : ' ' ∉ f0) (hf1 : ' ' ∉ f1)
    (htail : tail = [] ∨ ∃ t, tail = ' ' :: t)
    (hnc : startsWithHash (f0 ++ ' ' :: (f1 ++ tail)) = false)
    (h0 : pyFloat f0 = some dl) (h1 : pyFloat f1 = some db) :
    lineDelta (f0 ++ ' ' :: (f1 ++ tail)) = some (if footprintTest dl db then 1 else 0) := by
  have hsplit : splitChar ' ' (f0 ++ ' ' :: (f1 ++ tail)) = f0 :: splitChar ' ' (f1 ++ tail) :=
    splitChar_cons_sep ' ' f0 (f1 ++ tail) hf0
  have hsplit2 : ∃ fs, splitChar ' ' (f1 ++ tail) = f1 :: fs := by
    rcases htail with rfl | ⟨t, rfl⟩
    · rw [List.append_nil, splitChar_no_sep ' ' f1 hf1]; exact ⟨[], rfl⟩
    · rw [splitChar_cons_sep ' ' f1 t hf1]; exact ⟨_, rfl⟩
  obtain ⟨fs, hfs⟩ := hsplit2
  apply lineDelta_parse_eq _ dl db hnc
  · rw [hsplit, hfs]; simp [h0]
  · rw [hsplit, hfs]; simp [h1]

/-- Witness for the amended C3 at the line `1.5 0.5 x`. -/
theorem single_space_fields_parse_ok_witness :
    lineDelta (("1.5").data ++ ' ' :: (("0.5").data ++ (' ' :: ("x\n").data))) =
      some (if footprintTest (.fin 3 (-1)) (.fin 1 (-1)) then 1 else 0) :=
  single_space_fields_parse_ok (("1.5").data) (("0.5").data) (' ' :: ("x\n").data) (.fin 3 (-1)) (.fin 1 (-1))
    (by decide) (by decide) (Or.inr ⟨("x\n").data, rfl⟩) (by decide) (by decide) (by decide)

theorem lineDelta_comment (line : List Char) (h : startsWithHash line = true) :
    lineDelta line = some 0 := by
  unfold lineDelta
  rw [h]
  rfl

/-- C4: lines starting with the comment marker contribute nothing and can
never raise; an input of only comment lines prints the count 0. -/
theorem comment_lines_skipped :
    (∀ line : List Char, startsWithHash line = true → lineDelta line = some 0) ∧
    (∀ lines : List (List Char), (∀ l ∈ lines, startsWithHash l = true) →
      runProgram lines = some (message 0)) := by
  have hskip : ∀ line : List Char, startsWithHash line = true → lineDelta line = some 0 :=
    lineDelta_comment
  refine ⟨hskip, ?_⟩
  have hscan : ∀ (lines : List (List Char)), (∀ l ∈ lines, startsWithHash l = true) →
      ∀ c, scanLines lines c = some c := by
    intro lines
    induction lines with
    | nil => intro _ c; rfl
    | cons a rest ih =>
      intro hall c
      unfold scanLines
      rw [hskip a (hall a (List.mem_cons_self _ _))]
      exact ih (fun l hl => hall l (List.mem_cons_of_mem _ hl)) c
  intro lines hall
  unfold runProgram
  rw [hscan lines hall 0]

/-- Witness for C4 at a comment line and an input of two comment lines. -/
theorem comment_lines_skipped_witness :
    lineDelta (("# comment\n").data) = some 0 ∧
    runProgram [("# a\n").data, ("#\n").data] = some (message 0) :=
  ⟨comment_lines_skipped.1 (("# comment\n").data) (by decide),
   comment_lines_skipped.2 [("# a\n").data, ("#\n").data] (by decide)⟩

theorem scanLines_cons_some (a : List Char) (rest : List (List Char)) (c d : Nat)
    (ha : lineDelta a = some d) :
    scanLines (a :: rest) c = scanLines rest (c + d) := by
  have h1 : scanLines (a :: rest) c =
      match lineDelta a with
      | none => none
      | some d => scanLines rest (c + d) := rfl
  rw [h1, ha]

theorem scanLines_cons_none (a : List Char) (rest : List (List Char)) (c : Nat)
    (ha : lineDelta a = none) :
    scanLines (a :: rest) c = none := by
  have h1 : scanLines (a :: rest) c =
      match lineDelta a with
      | none => none
      | some d => scanLines rest (c + d) := rfl
  rw [h1, ha]

theorem natDigitsAux_isDigit (fuel : Nat) :
    ∀ n : Nat, ∀ c ∈ natDigitsAux fuel n, c.isDigit = true := by
  induction fuel with
  | zero => intro n c hc; cases hc
  | succ f ih =>
    intro n c hc
    unfold natDigitsAux at hc
    by_cases hn : n = 0
    · rw [if_pos hn] at hc; cases hc
    · rw [if_neg hn] at hc
      rcases List.mem_append.mp hc with h | h
      · exact ih _ c h
      · have hcq : c = Char.ofNat (48 + n % 10) := List.mem_singleton.mp h
        subst hcq
        have h10 : n % 10 < 10 := Nat.mod_lt _ (by norm_num)
        revert h10
        generalize n % 10 = r
        intro h10
        interval_cases r <;> decide

theorem newline_not_mem_natRepr (n : Nat) : '\n' ∉ natRepr n := by
  intro h
  unfold natRepr at h
  by_cases hn : n = 0
  · rw [if_pos hn] at h
    exact absurd (List.mem_singleton.mp h) (by decide)
  · rw [if_neg hn] at h
    exact absurd (natDigitsAux_isDigit (n + 1) n '\n' h) (by decide)

theorem newline_not_mem_message (n : Nat) : '\n' ∉ message n := by
  intro h
  unfold message at h
  rcases List.mem_append.mp h with h | h
  · rcases List.mem_append.mp h with h | h
    · exact absurd h (by decide)
    · exact newline_not_mem_natRepr n h
  · exact absurd h (by decide)

/-- C5: a run that completes without error prints exactly the sentence
`There are N grid points within the JASMINE extended footprint` with the
final count in decimal, and the message contains no newline, so exactly
one line is written. -/
theorem successful_run_prints_count (lines : List (List Char)) (n : Nat)
    (h : scanLines lines 0 = some n) :
    runProgram lines =
      some (("There are ").data ++ natRepr n ++
        (" grid points within the JASMINE extended footprint").data) ∧
    '\n' ∉ message n := by
  constructor
  · unfold runProgram
    rw [h]
    rfl
  · exact newline_not_mem_message n

/-- Witness for C5 at the empty input, whose count is 0. -/
theorem successful_run_prints_count_witness :
    (runProgram [] =
      some (("There are ").data ++ natRepr 0 ++
        (" grid points within the JASMINE extended footprint").data)) ∧
    '\n' ∉ message 0 :=
  successful_run_prints_count [] 0 rfl

theorem scanLines_perm_eq (ls ls' : List (List Char)) (hp : ls.Perm ls') :
    ∀ c, scanLines ls c = scanLines ls' c := by
  induction hp with
  | nil => intro c; rfl
  | cons a _ ih =>
    intro c
    rcases ha : lineDelta a with _ | d
    · rw [scanLines_cons_none _ _ _ ha, scanLines_cons_none _ _ _ ha]
    · rw [scanLines_cons_some _ _ _ _ ha, scanLines_cons_some _ _ _ _ ha, ih]
  | swap x y l =>
    intro c
    rcases hy : lineDelta y with _ | dy <;> rcases hx : lineDelta x with _ | dx
    · rw [scanLines_cons_none _ _ _ hy, scanLines_cons_none _ _ _ hx]
    · rw [scanLines_cons_none _ _ _ hy, scanLines_cons_some _ _ _ _ hx,
        scanLines_cons_none _ _ _ hy]
    · rw [scanLines_cons_some _ _ _ _ hy, scanLines_cons_none _ _ _ hx,
        scanLines_cons_none _ _ _ hx]
    · rw [scanLines_cons_some _ _ _ _ hy, scanLines_cons_some _ _ _ _ hx,
        scanLines_cons_some _ _ _ _ hx, scanLines_cons_some _ _ _ _ hy,
        Nat.add_right_comm]
  | trans _ _ ih1 ih2 => intro c; exact (ih1 c).trans (ih2 c)

/-- C6: on a well-formed input, permuting the lines leaves the printed
count unchanged. -/
theorem count_perm_invariant (ls ls' : List (List Char)) (hperm : ls.Perm ls')
    (_hwf : ∀ l ∈ ls, lineDelta l ≠ none) :
    runProgram ls = runProgram ls' := by
  unfold runProgram
  rw [scanLines_perm_eq ls ls' hperm 0]

/-- Witness for C6: swapping a data line and a comment line. -/
theorem count_perm_invariant_witness :
    runProgram [("0.5 0.5\n").data, ("# c\n").data] =
      runProgram [("# c\n").data, ("0.5 0.5\n").data] :=
  count_perm_invariant _ _ (List.Perm.swap _ _ _) (by decide)

theorem lineDelta_le_one (line : List Char) (d : Nat) (h : lineDelta line = some d) :
    d ≤ 1 := by
  unfold lineDelta at h
  by_cases hc : startsWithHash line
  · rw [if_pos hc] at h
    injection h with h'
    omega
  · rw [if_neg hc] at h
    rcases h0 : (splitChar ' ' line).get? 0 with _ | f0 <;> rw [h0] at h
    · cases h
    simp only [Option.some_bind] at h
    rcases hp0 : pyFloat f0 with _ | l <;> rw [hp0] at h
    · cases h
    simp only [Option.some_bind] at h
    rcases h1 : (splitChar ' ' line).get? 1 with _ | f1 <;> rw [h1] at h
    · cases h
    simp only [Option.some_bind] at h
    rcases hp1 : pyFloat f1 with _ | b <;> rw [hp1] at h
    · cases h
    simp only [Option.some_bind] at h
    injection h with h'
    subst h'
    split <;> omega

theorem scanLines_lower (ls : List (List Char)) :
    ∀ c n, scanLines ls c = some n → c ≤ n := by
  induction ls with
  | nil => intro c n h; injection h with h'; omega
  | cons a rest ih =>
    intro c n h
    rcases ha : lineDelta a with _ | d
    · rw [scanLines_cons_none _ _ _ ha] at h; cases h
    · rw [scanLines_cons_some _ _ _ _ ha] at h
      have := ih (c + d) n h
      omega

theorem scanLines_upper (ls : List (List Char)) :
    ∀ c n, scanLines ls c = some n →
      n ≤ c + (ls.filter (fun l => !startsWithHash l)).length := by
  induction ls with
  | nil => intro c n h; injection h with h'; simp; omega
  | cons a rest ih =>
    intro c n h
    rcases ha : lineDelta a with _ | d
    · rw [scanLines_cons_none _ _ _ ha] at h; cases h
    · rw [scanLines_cons_some _ _ _ _ ha] at h
      have hrec := ih (c + d) n h
      by_cases hc : startsWithHash a = true
      · have hd : d = 0 := by
          have h0 := lineDelta_comment a hc
          rw [h0] at ha
          injection ha with ha'
          omega
        rw [List.filter_cons]
        simp only [hc, Bool.not_true, Bool.false_eq_true, if_false]
        omega
      · rw [Bool.not_eq_true] at hc
        have hd1 := lineDelta_le_one a d ha
        rw [List.filter_cons]
        simp only [hc, Bool.not_false, if_true, List.length_cons]
        omega

theorem scanLines_append (ls1 ls2 : List (List Char)) :
    ∀ c, scanLines (ls1 ++ ls2) c = (scanLines ls1 c).bind fun m => scanLines ls2 m := by
  induction ls1 with
  | nil => intro c; rfl
  | cons a rest ih =>
    intro c
    rcases ha : lineDelta a with _ | d
    · rw [List.cons_append, scanLines_cons_none _ _ _ ha, scanLines_cons_none _ _ _ ha]
      rfl
    · rw [List.cons_append, scanLines_cons_some _ _ _ _ ha, scanLines_cons_some _ _ _ _ ha,
        ih]

/-- C7: the counter starts at zero, each line changes it by at most one
and never decreases it: on a successful scan every prefix count exists and
is at most the final count, and the final count is at most the number of
non-comment lines. -/
theorem counter_invariants (ls : List (List Char)) (n : Nat)
    (h : scanLines ls 0 = some n) :
    (∀ line d, lineDelta line = some d → d ≤ 1) ∧
    n ≤ (ls.filter (fun l => !startsWithHash l)).length ∧
    (∀ ls1 ls2, ls = ls1 ++ ls2 → ∃ m, scanLines ls1 0 = some m ∧ m ≤ n) := by
  refine ⟨fun line d hd => lineDelta_le_one line d hd, ?_, ?_⟩
  · have := scanLines_upper ls 0 n h
    omega
  · intro ls1 ls2 heq
    subst heq
    rw [scanLines_append ls1 ls2 0] at h
    rcases h1 : scanLines ls1 0 with _ | m <;> rw [h1] at h
    · cases h
    · rw [Option.some_bind] at h
      exact ⟨m, rfl, scanLines_lower ls2 m n h⟩

/-- Witness for C7 at a one-line input that counts to 1. -/
theorem counter_invariants_witness :
    (∀ line d, lineDelta line = some d → d ≤ 1) ∧
    1 ≤ ([("0.0 0.0\n").data].filter (fun l => !startsWithHash l)).length ∧
    (∀ ls1 ls2, [("0.0 0.0\n").data] = ls1 ++ ls2 →
      ∃ m, scanLines ls1 0 = some m ∧ m ≤ 1) :=
  counter_invariants [("0.0 0.0\n").data] 1 (by decide)

theorem lineDelta_congr (a b : List Char)
    (hh : startsWithHash a = startsWithHash b)
    (hf : startsWithHash a = false →
      (splitChar ' ' a).get? 0 = (splitChar ' ' b).get? 0 ∧
      (splitChar ' ' a).get? 1 = (splitChar ' ' b).get? 1) :
    lineDelta a = lineDelta b := by
  unfold lineDelta
  cases hc : startsWithHash a with
  | true =>
    rw [← hh, hc]
    simp
  | false =>
    obtain ⟨h0, h1⟩ := hf hc
    rw [← hh, hc, h0, h1]

/-- C8: only comment status and the first two space-separated fields of
each line influence the result: two well-formed inputs of the same length
agreeing on those produce the same outcome. -/
theorem only_first_two_fields_matter (ls ls' : List (List Char))
    (hagree : List.Forall₂ (fun a b =>
      startsWithHash a = startsWithHash b ∧
      (startsWithHash a = false →
        (splitChar ' ' a).get? 0 = (splitChar ' ' b).get? 0 ∧
        (splitChar ' ' a).get? 1 = (splitChar ' ' b).get? 1)) ls ls')
    (_hwf : ∀ l ∈ ls, lineDelta l ≠ none) :
    runProgram ls = runProgram ls' := by
  have hscan : ∀ c, scanLines ls c = scanLines ls' c := by
    clear _hwf
    induction hagree with
    | nil => intro c; rfl
    | @cons a b l1 l2 hab _ ih =>
      intro c
      have hd := lineDelta_congr a b hab.1 hab.2
      rcases ha : lineDelta a with _ | d
      · rw [scanLines_cons_none _ _ _ ha, scanLines_cons_none _ _ _ (hd.symm.trans ha)]
      · rw [scanLines_cons_some _ _ _ _ ha,
          scanLines_cons_some _ _ _ _ (hd.symm.trans ha), ih]
  unfold runProgram
  rw [hscan 0]

/-- Witness for C8: two one-line inputs differing only from field 2 on. -/
theorem only_first_two_fields_matter_witness :
    runProgram [("1.0 1.0 extra\n").data] = runProgram [("1.0 1.0 other stuff\n").data] :=
  only_first_two_fields_matter _ _
    (List.Forall₂.cons ⟨by decide, fun _ => ⟨by decide, by decide⟩⟩ List.Forall₂.nil)
    (by decide)

/-- C9: the five-line example input runs without error and prints exactly
the message with count 2. -/
theorem example_input_count_two :
    runProgram [("-3.0 1.0 x\n").data, ("3.1 0.0 y\n").data, ("0.0 -1.8 z\n").data,
      ("# comment\n").data, ("1.0 1.0 w\n").data] =
      some (("There are 2 grid points within the JASMINE extended footprint").data) := by
  decide

theorem splitChar_ne_nil (sep : Char) (cs : List Char) : splitChar sep cs ≠ [] := by
  cases cs with
  | nil => exact fun h => List.noConfusion h
  | cons c cs =>
    rw [splitChar_cons]
    by_cases h : c = sep
    · rw [if_pos h]
      exact fun h' => List.noConfusion h'
    · rw [if_neg h]
      rcases splitChar sep cs with _ | ⟨f, fs⟩ <;> exact fun h' => List.noConfusion h'

theorem mem_of_mem_splitChar (sep : Char) (cs : List Char) :
    ∀ f ∈ splitChar sep cs, ∀ c ∈ f, c ∈ cs := by
  induction cs with
  | nil =>
    intro f hf c hc
    have : f = [] := List.mem_singleton.mp hf
    subst this
    cases hc
  | cons x xs ih =>
    intro f hf c hc
    rw [splitChar_cons] at hf
    by_cases hx : x = sep
    · rw [if_pos hx] at hf
      rcases List.mem_cons.mp hf with rfl | hf'
      · cases hc
      · exact List.mem_cons_of_mem _ (ih f hf' c hc)
    · rw [if_neg hx] at hf
      rcases hsp : splitChar sep xs with _ | ⟨g, gs⟩
      · exact absurd hsp (splitChar_ne_nil sep xs)
      · rw [hsp] at hf
        rcases List.mem_cons.mp hf with rfl | hf'
        · rcases List.mem_cons.mp hc with rfl | hc'
          · exact List.mem_cons_self _ _
          · have hg : g ∈ splitChar sep xs := by rw [hsp]; exact List.mem_cons_self _ _
            exact List.mem_cons_of_mem _ (ih g hg c hc')
        · have hfm : f ∈ splitChar sep xs := by rw [hsp]; exact List.mem_cons_of_mem _ hf'
          exact List.mem_cons_of_mem _ (ih f hfm c hc)

theorem transformChar_space (c : Char) (h : isPyFloatSpace c = true) :
    transformChar c = c := by
  unfold isPyFloatSpace at h
  simp only [Bool.or_eq_true, decide_eq_true_eq] at h
  rcases h with ((((rfl | rfl) | rfl) | rfl) | rfl) | rfl <;> rfl

theorem pyFloat_all_space (cs : List Char) (h : ∀ c ∈ cs, isPyFloatSpace c = true) :
    pyFloat cs = none := by
  have hmap : ∀ c ∈ cs.map transformChar, isPyFloatSpace c = true := by
    intro c hc
    rcases List.mem_map.mp hc with ⟨a, ha, rfl⟩
    rw [transformChar_space a (h a ha)]
    exact h a ha
  have hstrip : stripSpaces (cs.map transformChar) = [] := by
    unfold stripSpaces
    rw [List.dropWhile_eq_nil_iff.mpr hmap]
    rfl
  unfold pyFloat
  rw [hstrip]
  rfl

/-- C10: a line consisting only of whitespace is not a comment, so it is
not skipped; splitting it leaves a first field `float` rejects, the line
raises, and any input containing it prints no count. -/
theorem blank_line_aborts (line : List Char)
    (hws : ∀ c ∈ line, isPyFloatSpace c = true) :
    startsWithHash line = false ∧
    lineDelta line = none ∧
    ∀ ls1 ls2 : List (List Char), runProgram (ls1 ++ line :: ls2) = none := by
  have hnc : startsWithHash line = false := by
    cases line with
    | nil => rfl
    | cons c cs =>
      have hc := hws c (List.mem_cons_self _ _)
      by_cases h : c = hashChar
      · rw [h] at hc
        exact absurd hc (by decide)
      · simp [startsWithHash, h]
  have hnone : lineDelta line = none := by
    rcases hsp : splitChar ' ' line with _ | ⟨f0, fs⟩
    · exact absurd hsp (splitChar_ne_nil ' ' line)
    · have hf0 : (splitChar ' ' line).get? 0 = some f0 := by rw [hsp]; rfl
      have hp : pyFloat f0 = none := by
        apply pyFloat_all_space
        intro c hc
        exact hws c (mem_of_mem_splitChar ' ' line f0
          (by rw [hsp]; exact List.mem_cons_self _ _) c hc)
      exact lineDelta_none_left line f0 hnc hf0 hp
  refine ⟨hnc, hnone, ?_⟩
  intro ls1 ls2
  unfold runProgram
  rw [scanLines_eq_none (ls1 ++ line :: ls2) line
    (List.mem_append_right _ (List.mem_cons_self _ _)) hnone 0]

/-- Witness for C10 at the bare newline line. -/
theorem blank_line_aborts_witness :
    startsWithHash (("\n").data) = false ∧
    lineDelta (("\n").data) = none ∧
    runProgram [("1.0 1.0\n").data, ("\n").data] = none :=
  ⟨(blank_line_aborts (("\n").data) (by decide)).1,
   (blank_line_aborts (("\n").data) (by decide)).2.1,
   (blank_line_aborts (("\n").data) (by decide)).2.2 [("1.0 1.0\n").data] []⟩

end CountGrid
